import Mathlib

/-!
Verification of the synchronization and structural-indexing pipeline of the
az-cn-go-wammcp repository (archive+AST based sync variant), against its
natural-language specification.

Modelling conventions:
* Go strings are modeled as lists of characters (`GoStr`).  Go indexes
  strings by byte; the indexed content here is ASCII, where byte and
  character positions coincide.
* Go maps that are only read and written pointwise are modeled as
  association lists (`assocFind` / `assocSet`).
* The opaque persistent store is modeled on its success path: inserts are
  recorded as events or rows, and identifier allocation from the store is
  modeled as a fresh counter.
* Time instants are modeled as integers (an arbitrary fixed unit).
-/

namespace Wam

/-- Go strings, modeled as lists of characters. -/
abbrev GoStr := List Char

/-- Shorthand turning a Lean string literal into a `GoStr`. -/
def gs (s : String) : GoStr := s.toList

/-- Model of Go `unicode.IsSpace` restricted to the code points that occur in
the indexed content (ASCII whitespace plus NEL and NBSP). -/
def goIsSpace (c : Char) : Bool :=
  c == ' ' || c == '\t' || c == '\n' || c == '\x0b' || c == '\x0c' || c == '\r' ||
  c == '\u0085' || c == '\u00A0'

/-- Model of Go `strings.ToLower` (character-wise lowering). -/
def goToLower (s : GoStr) : GoStr := s.map Char.toLower

/-- Left part of Go `strings.TrimSpace`. -/
def goTrimLeft (s : GoStr) : GoStr := s.dropWhile goIsSpace

/-- Right part of Go `strings.TrimSpace`. -/
def goTrimRight (s : GoStr) : GoStr := (s.reverse.dropWhile goIsSpace).reverse

/-- Model of Go `strings.TrimSpace`. -/
def goTrimSpace (s : GoStr) : GoStr := goTrimRight (goTrimLeft s)

/-- Model of Go `strings.TrimLeft` with an explicit cutset. -/
def goTrimLeftCutset (s : GoStr) (cutset : List Char) : GoStr :=
  s.dropWhile (fun c => c ∈ cutset)

/-- Model of Go `strings.Trim` with an explicit cutset (both ends). -/
def goTrimCutset (s : GoStr) (cutset : List Char) : GoStr :=
  ((s.dropWhile (fun c => c ∈ cutset)).reverse.dropWhile (fun c => c ∈ cutset)).reverse

/-- Model of Go `strings.Contains s sub`. -/
def goContains (s sub : GoStr) : Bool := decide (List.IsInfix sub s)

/-- Association-list lookup, modelling a pointwise read of a Go map. -/
def assocFind {α β : Type} [DecidableEq α] (k : α) : List (α × β) → Option β
  | [] => none
  | (k', v) :: rest => if k' = k then some v else assocFind k rest

/-- Association-list update, modelling a pointwise write of a Go map. -/
def assocSet {α β : Type} [DecidableEq α] (k : α) (v : β) : List (α × β) → List (α × β)
  | [] => [(k, v)]
  | (k', v') :: rest => if k' = k then (k', v) :: rest else (k', v') :: assocSet k v rest

theorem assocFind_assocSet_self {α β : Type} [DecidableEq α] (k : α) (v : β)
    (l : List (α × β)) : assocFind k (assocSet k v l) = some v := by
  induction l with
  | nil => simp [assocFind, assocSet]
  | cons p rest ih =>
    obtain ⟨k', v'⟩ := p
    by_cases h : k' = k
    · simp [assocFind, assocSet, h]
    · simp [assocFind, assocSet, h, ih]

theorem assocFind_append {α β : Type} [DecidableEq α] (k : α) (l₁ l₂ : List (α × β)) :
    assocFind k (l₁ ++ l₂) =
      match assocFind k l₁ with
      | some v => some v
      | none => assocFind k l₂ := by
  induction l₁ with
  | nil => simp [assocFind]
  | cons p rest ih =>
    obtain ⟨k', v'⟩ := p
    by_cases h : k' = k
    · simp [assocFind, h]
    · simp [assocFind, h, ih]

theorem assocFind_eq_none_iff {α β : Type} [DecidableEq α] (k : α) (l : List (α × β)) :
    assocFind k l = none ↔ ∀ p ∈ l, p.1 ≠ k := by
  induction l with
  | nil => simp [assocFind]
  | cons p rest ih =>
    obtain ⟨k', v'⟩ := p
    by_cases h : k' = k
    · simp [assocFind, h]
    · simp [assocFind, h, ih]

theorem assocFind_some_mem {α β : Type} [DecidableEq α] {k : α} {v : β}
    {l : List (α × β)} (h : assocFind k l = some v) : (k, v) ∈ l := by
  induction l with
  | nil => simp [assocFind] at h
  | cons p rest ih =>
    obtain ⟨k', v'⟩ := p
    by_cases hk : k' = k
    · subst hk
      simp [assocFind] at h
      subst h
      exact List.mem_cons_self _ _
    · simp [assocFind, hk] at h
      exact List.mem_cons_of_mem _ (ih h)

/-! ## Rate limiter (RateLimiter.acquire, sync.go)

The mutex-guarded critical section of `acquire` is modeled as a pure
transition on the limiter state, with the current time passed explicitly
(`time.Now()` at the moment the critical section runs). -/

/-- Fixed refill window of the token bucket (`time.Hour`), in the integer
time unit of the model. -/
def hourWindow : Int := 3600

/-- State of the token bucket. -/
structure RateLimiter where
  tokens : Int
  maxTokens : Int
  refillAt : Int
  deriving DecidableEq, Repr

/-- Embedding of `(*RateLimiter).acquire`: refill to full capacity once the
current time is strictly past the refill deadline, then consume one token if
any is available. -/
def RateLimiter.acquire (now : Int) (rl : RateLimiter) : Bool × RateLimiter :=
  let rl :=
    if rl.refillAt < now then
      { rl with tokens := rl.maxTokens, refillAt := now + hourWindow }
    else rl
  if 0 < rl.tokens then (true, { rl with tokens := rl.tokens - 1 })
  else (false, rl)

/-- C7: for a capacity-1 limiter whose token is already consumed, an
acquisition at or before the refill deadline fails and leaves the state
unchanged; an acquisition strictly past the deadline refills to full
capacity (never partially), succeeds, and schedules the next refill one
window later. -/
theorem rateLimiter_capacity_one_boundary (rl : RateLimiter) (now₁ now₂ : Int)
    (hmax : rl.maxTokens = 1) (htok : rl.tokens = 0)
    (hbefore : ¬ rl.refillAt < now₁) (hafter : rl.refillAt < now₂) :
    (rl.acquire now₁ = (false, rl)) ∧
    (rl.acquire now₂ =
      (true, { tokens := rl.maxTokens - 1, maxTokens := rl.maxTokens,
               refillAt := now₂ + hourWindow })) := by
  constructor
  · simp [RateLimiter.acquire, hbefore, htok]
  · simp [RateLimiter.acquire, hafter, hmax]

/-- Witness for C7 at a concrete limiter state and concrete times. -/
theorem rateLimiter_capacity_one_boundary_witness :
    (RateLimiter.acquire 50 ⟨0, 1, 100⟩ = (false, ⟨0, 1, 100⟩)) ∧
    (RateLimiter.acquire 200 ⟨0, 1, 100⟩ = (true, ⟨0, 1, 200 + hourWindow⟩)) :=
  rateLimiter_capacity_one_boundary ⟨0, 1, 100⟩ 50 200 rfl rfl (by decide) (by decide)

/-! ## Repository eligibility filter (Syncer.fetchRepositories, sync.go)

Only the pure filtering loop over the decoded repository listing is
embedded; pagination and JSON decoding are the fetch client's concern. -/

/-- Repository metadata as decoded from the listing endpoint.  The Go field
`Private` is called `priv` here because `private` is a Lean keyword. -/
structure GitHubRepo where
  name : GoStr
  priv : Bool
  archived : Bool
  size : Int
  deriving DecidableEq, Repr

/-- One iteration of the eligibility loop of `fetchRepositories`: keep a
repository only if its name has the module-naming prefix and it is neither
private, archived, nor of non-positive size. -/
def fetchRepoStep (acc : List GitHubRepo) (repo : GitHubRepo) : List GitHubRepo :=
  if ¬ (gs "terraform-azure-").isPrefixOf repo.name then acc
  else if repo.priv then acc
  else if repo.archived then acc
  else if repo.size ≤ 0 then acc
  else acc ++ [repo]

/-- Embedding of the eligibility loop of `fetchRepositories`. -/
def fetchRepositoriesFilter (allRepos : List GitHubRepo) : List GitHubRepo :=
  allRepos.foldl fetchRepoStep []

/-- Eligibility predicate stated as in the specification: name prefix match
and none of the three exclusion conditions. -/
def eligibleRepo (repo : GitHubRepo) : Bool :=
  (gs "terraform-azure-").isPrefixOf repo.name && !repo.priv && !repo.archived &&
    decide (0 < repo.size)

theorem fetchRepositoriesFilter_go (allRepos : List GitHubRepo) :
    ∀ acc : List GitHubRepo,
      allRepos.foldl fetchRepoStep acc = acc ++ allRepos.filter eligibleRepo := by
  induction allRepos with
  | nil => intro acc; simp
  | cons repo rest ih =>
    intro acc
    rw [List.foldl_cons, ih, List.filter_cons]
    by_cases h1 : (gs "terraform-azure-").isPrefixOf repo.name
    · by_cases h2 : repo.priv
      · simp [fetchRepoStep, eligibleRepo, h1, h2]
      · by_cases h3 : repo.archived
        · simp [fetchRepoStep, eligibleRepo, h1, h2, h3]
        · by_cases h4 : repo.size ≤ 0
          · simp [fetchRepoStep, eligibleRepo, h1, h2, h3, h4, not_lt.mpr h4]
          · simp [fetchRepoStep, eligibleRepo, h1, h2, h3, h4, lt_of_not_le h4]
    · simp [fetchRepoStep, eligibleRepo, h1]

/-- C8: the discovery filter returns exactly the repositories whose name
matches the module-naming prefix and that are neither private, archived, nor
of non-positive size; in particular a private, archived or empty repository
is excluded regardless of its name, and exclusion is a total filtering step
that cannot fail the pass. -/
theorem fetchRepositories_eligibility_filter (allRepos : List GitHubRepo) :
    fetchRepositoriesFilter allRepos = allRepos.filter eligibleRepo ∧
    (∀ repo ∈ fetchRepositoriesFilter allRepos,
      (gs "terraform-azure-").isPrefixOf repo.name = true ∧
      repo.priv = false ∧ repo.archived = false ∧ 0 < repo.size) ∧
    (∀ repo ∈ allRepos, (repo.priv = true ∨ repo.archived = true ∨ repo.size ≤ 0) →
      repo ∉ fetchRepositoriesFilter allRepos) := by
  have hmain : fetchRepositoriesFilter allRepos = allRepos.filter eligibleRepo := by
    simpa using fetchRepositoriesFilter_go allRepos []
  refine ⟨hmain, ?_, ?_⟩
  · intro repo hmem
    rw [hmain, List.mem_filter] at hmem
    have := hmem.2
    simp only [eligibleRepo, Bool.and_eq_true, Bool.not_eq_true', decide_eq_true_eq] at this
    exact ⟨this.1.1.1, this.1.1.2, this.1.2, this.2⟩
  · intro repo _ hexcl hmem
    rw [hmain, List.mem_filter] at hmem
    have := hmem.2
    simp only [eligibleRepo, Bool.and_eq_true, Bool.not_eq_true', decide_eq_true_eq] at this
    rcases hexcl with h | h | h
    · rw [this.1.1.2] at h; exact Bool.false_ne_true h
    · rw [this.1.2] at h; exact Bool.false_ne_true h
    · exact absurd this.2 (not_lt.mpr h)

/-- Concrete discovered listing for the C8 witness: one eligible
repository, one private, one with a non-matching name, one archived and one
empty. -/
def c8Repos : List GitHubRepo :=
  [⟨gs "terraform-azure-vnet", false, false, 10⟩,
   ⟨gs "terraform-azure-secret", true, false, 10⟩,
   ⟨gs "other-repo", false, false, 5⟩,
   ⟨gs "terraform-azure-old", false, true, 3⟩,
   ⟨gs "terraform-azure-empty", false, false, 0⟩]

/-- Witness for C8 at a concrete listing: only the eligible repository
survives, and the private one is excluded despite its matching name. -/
theorem fetchRepositories_eligibility_filter_witness :
    fetchRepositoriesFilter c8Repos = [⟨gs "terraform-azure-vnet", false, false, 10⟩] ∧
    (⟨gs "terraform-azure-secret", true, false, 10⟩ : GitHubRepo) ∉
      fetchRepositoriesFilter c8Repos :=
  ⟨(fetchRepositories_eligibility_filter c8Repos).1.trans (by decide),
   (fetchRepositories_eligibility_filter c8Repos).2.2 _ (by decide) (Or.inl rfl)⟩

/-! ## Category learner (CategoryLearner.LearnFromModule, sync.go)

The learner state is process-scoped; its three maps are modeled as
association lists. -/

/-- A resource extracted from a module, as far as the learner reads it. -/
structure TfResource where
  rtype : GoStr
  deriving DecidableEq, Repr

/-- A module as seen by the category learner. -/
structure TfModule where
  name : GoStr
  description : GoStr
  resources : List TfResource
  deriving DecidableEq, Repr

/-- State of the category learner. -/
structure CategoryLearner where
  resourceTypes : List (GoStr × Nat)
  resourceClusters : List (GoStr × List GoStr)
  textPatterns : List (GoStr × List (GoStr × Nat))
  deriving DecidableEq, Repr

/-- Model of Go `strings.Fields` (split around runs of white space). -/
def goFields (s : GoStr) : List GoStr :=
  (s.splitOnP goIsSpace).filter (fun w => w ≠ [])

/-- Embedding of `extractCategoryHint`: the first dash-separated name
segment longer than three characters that is not a generic vendor word. -/
def extractCategoryHint (moduleName : GoStr) : GoStr :=
  let parts := (goToLower moduleName).splitOn '-'
  (parts.find? (fun part => 3 < part.length && part ≠ gs "terraform" && part ≠ gs "azure")).getD []

/-- Embedding of `(*CategoryLearner).LearnFromModule`.  Note that the
cluster key joins the module's resource types in declaration order,
duplicates included, without sorting. -/
def learnFromModule (cl : CategoryLearner) (m : TfModule) : CategoryLearner :=
  let moduleResources := m.resources.map (·.rtype)
  let resourceTypes := moduleResources.foldl
    (fun acc t => assocSet t ((assocFind t acc).getD 0 + 1) acc) cl.resourceTypes
  let resourceClusters :=
    if 1 < moduleResources.length then
      assocSet (List.intercalate (gs ",") moduleResources) moduleResources cl.resourceClusters
    else cl.resourceClusters
  let text := goToLower (m.name ++ gs " " ++ m.description)
  let words := goFields text
  let categoryHint := extractCategoryHint m.name
  let textPatterns :=
    if categoryHint ≠ [] then
      let table := (assocFind categoryHint cl.textPatterns).getD []
      let table := words.foldl
        (fun tbl word =>
          if 3 < word.length then assocSet word ((assocFind word tbl).getD 0 + 1) tbl
          else tbl) table
      assocSet categoryHint table cl.textPatterns
    else cl.textPatterns
  { resourceTypes := resourceTypes, resourceClusters := resourceClusters,
    textPatterns := textPatterns }

/-- The empty learner state (`NewCategoryLearner`). -/
def newCategoryLearner : CategoryLearner := ⟨[], [], []⟩

/-- C9 counterexample: the co-occurrence cluster key is NOT the sorted,
joined list of the module's resource types, and it is not independent of
declaration order.  For a module declaring types `b_x` then `a_y`, the
recorded key is the declaration-order join; the sorted join is absent, and
reversing the declaration order produces a different cluster map. -/
theorem learnFromModule_unsorted_key_counterexample :
    (learnFromModule newCategoryLearner
        ⟨gs "terraform-azure-m", gs "", [⟨gs "b_x"⟩, ⟨gs "a_y"⟩]⟩).resourceClusters
      = [(gs "b_x,a_y", [gs "b_x", gs "a_y"])] ∧
    assocFind (gs "a_y,b_x")
      (learnFromModule newCategoryLearner
        ⟨gs "terraform-azure-m", gs "", [⟨gs "b_x"⟩, ⟨gs "a_y"⟩]⟩).resourceClusters = none ∧
    (learnFromModule newCategoryLearner
        ⟨gs "terraform-azure-m", gs "", [⟨gs "b_x"⟩, ⟨gs "a_y"⟩]⟩).resourceClusters ≠
      (learnFromModule newCategoryLearner
        ⟨gs "terraform-azure-m", gs "", [⟨gs "a_y"⟩, ⟨gs "b_x"⟩]⟩).resourceClusters := by
  refine ⟨by decide, by decide, by decide⟩

/-- C9 as amended: for every module with more than one resource
declaration, the learner records the exact list of the module's resource
types, in declaration order with duplicate declarations retained, keyed by
the comma-joined list in that same order; a module with at most one
resource declaration leaves the cluster map unchanged. -/
theorem learnFromModule_cluster_key_amended (cl : CategoryLearner) (m : TfModule) :
    (1 < m.resources.length →
      assocFind (List.intercalate (gs ",") (m.resources.map (·.rtype)))
        (learnFromModule cl m).resourceClusters = some (m.resources.map (·.rtype))) ∧
    (¬ 1 < m.resources.length →
      (learnFromModule cl m).resourceClusters = cl.resourceClusters) := by
  constructor
  · intro h
    have hlen : 1 < (m.resources.map (·.rtype)).length := by simpa using h
    simp only [learnFromModule, hlen, if_pos]
    exact assocFind_assocSet_self _ _ _
  · intro h
    have hlen : ¬ 1 < (m.resources.map (·.rtype)).length := by simpa using h
    simp [learnFromModule, hlen, h]

/-- Witness for the amended C9 at a concrete learner state and module. -/
theorem learnFromModule_cluster_key_amended_witness :
    assocFind (gs "a_y,b_x,a_y")
      (learnFromModule newCategoryLearner
        ⟨gs "terraform-azure-m", gs "", [⟨gs "a_y"⟩, ⟨gs "b_x"⟩, ⟨gs "a_y"⟩]⟩).resourceClusters
      = some [gs "a_y", gs "b_x", gs "a_y"] := by
  have h := (learnFromModule_cluster_key_amended newCategoryLearner
    ⟨gs "terraform-azure-m", gs "", [⟨gs "a_y"⟩, ⟨gs "b_x"⟩, ⟨gs "a_y"⟩]⟩).1 (by decide)
  simpa using h

/-! ## Expression source text (expressionText, sync.go)

`expressionText` slices `[]byte(content)` by the byte offsets of an HCL
source range.  A Go slice expression `data[start:end]` requires
`0 ≤ start ≤ end ≤ cap(data)`; the language only guarantees
`cap(data) ≥ len(data)`, so the model takes the guaranteed capacity
`cap = len`: an out-of-bound slice is a runtime panic, modeled as `none`. -/

/-- Byte offsets of an HCL source range (Go `int` fields). -/
structure HclRange where
  startByte : Int
  endByte : Int
  deriving DecidableEq, Repr

/-- Embedding of `expressionText`: clamp a negative start to 0, an end past
the content length down to the length, and an end before the start up to
the start, then slice.  A start offset beyond the content length escapes
all three clamps and makes the slice bounds exceed the slice capacity:
that is a panic (`none`), not an empty result. -/
def expressionText (content : GoStr) (rng : HclRange) : Option GoStr :=
  let start := rng.startByte
  let start := if start < 0 then 0 else start
  let stop := rng.endByte
  let stop := if stop > (content.length : Int) then (content.length : Int) else stop
  let stop := if stop < start then start else stop
  if start ≤ (content.length : Int) then
    some ((content.take stop.toNat).drop start.toNat)
  else none

/-- The result C10 claims for every input: the substring between the two
offsets with all out-of-range offsets clamped into the content, a
start beyond the content length included (yielding the empty string).
This is the specification-side definition to compare `expressionText`
against. -/
def expressionTextSpec (content : GoStr) (rng : HclRange) : GoStr :=
  let len : Int := content.length
  let start := max 0 (min rng.startByte len)
  let stop := max start (min rng.endByte len)
  (content.take stop.toNat).drop start.toNat

/-- C10 counterexample: with a start offset beyond the content length the
helper panics (out-of-bound slice) instead of returning the clamped — empty
— substring, so it is not total as claimed. -/
theorem expressionText_out_of_range_counterexample :
    expressionText (gs "ab") ⟨100, 100⟩ = none ∧
    expressionText (gs "ab") ⟨100, 100⟩ ≠ some (expressionTextSpec (gs "ab") ⟨100, 100⟩) := by
  refine ⟨by decide, by decide⟩

/-- C10 as amended: whenever the start offset does not exceed the content
length — in particular for every range produced by parsing the content
itself — the helper returns the substring between the offsets with a
negative start clamped to 0, an end past the length clamped to the length
and an end before the (clamped) start clamped up to the start; when the
start offset exceeds the content length it panics instead. -/
theorem expressionText_clamped_amended (content : GoStr) (rng : HclRange) :
    (rng.startByte ≤ (content.length : Int) →
      expressionText content rng = some (expressionTextSpec content rng)) ∧
    ((content.length : Int) < rng.startByte →
      expressionText content rng = none) := by
  constructor
  · intro h
    simp only [expressionText, expressionTextSpec]
    by_cases hs : rng.startByte < 0
    · have h0 : max 0 (min rng.startByte (content.length : Int)) = 0 := by omega
      rw [if_pos hs, h0]
      by_cases he : rng.endByte > (content.length : Int)
      · rw [if_pos he]
        have : ¬ (content.length : Int) < 0 := by omega
        rw [if_neg this]
        have hstop : max 0 (min rng.endByte (content.length : Int)) = (content.length : Int) := by
          omega
        rw [hstop]
        simp
      · rw [if_neg he]
        by_cases hlt : rng.endByte < 0
        · rw [if_pos hlt]
          have hstop : max 0 (min rng.endByte (content.length : Int)) = 0 := by omega
          rw [hstop]
          simp
        · rw [if_neg hlt]
          have hstop : max 0 (min rng.endByte (content.length : Int)) = rng.endByte := by
            omega
          rw [hstop]
          simp
    · have h0 : max 0 (min rng.startByte (content.length : Int)) = rng.startByte := by omega
      rw [if_neg hs, h0, if_pos h]
      by_cases he : rng.endByte > (content.length : Int)
      · rw [if_pos he]
        have hns : ¬ (content.length : Int) < rng.startByte := by omega
        rw [if_neg hns]
        have hstop : max rng.startByte (min rng.endByte (content.length : Int))
            = (content.length : Int) := by omega
        rw [hstop]
      · rw [if_neg he]
        by_cases hlt : rng.endByte < rng.startByte
        · rw [if_pos hlt]
          have hstop : max rng.startByte (min rng.endByte (content.length : Int))
              = rng.startByte := by omega
          rw [hstop]
        · rw [if_neg hlt]
          have hstop : max rng.startByte (min rng.endByte (content.length : Int))
              = rng.endByte := by omega
          rw [hstop]
  · intro h
    simp only [expressionText]
    have hs : ¬ rng.startByte < 0 := by omega
    rw [if_neg hs]
    by_cases he : rng.endByte > (content.length : Int)
    · rw [if_pos he]
      have : (content.length : Int) < rng.startByte := h
      rw [if_pos this]
      exact if_neg (by omega)
    · rw [if_neg he]
      have : rng.endByte < rng.startByte := by omega
      rw [if_pos this]
      exact if_neg (by omega)

/-- Witness for the amended C10 at a concrete content and in-range and
out-of-range offsets. -/
theorem expressionText_clamped_amended_witness :
    expressionText (gs "abcd") ⟨1, 9⟩ = some (expressionTextSpec (gs "abcd") ⟨1, 9⟩) ∧
    expressionText (gs "abcd") ⟨9, 9⟩ = none :=
  ⟨(expressionText_clamped_amended (gs "abcd") ⟨1, 9⟩).1 (by decide),
   (expressionText_clamped_amended (gs "abcd") ⟨9, 9⟩).2 (by decide)⟩

/-! ## Structural extractor (extractVariables, sync.go)

The HCL syntax tree is modeled by the features the extractor reads: a
top-level block has a type, labels and an attribute map from names to
expressions; an expression is a string literal, a boolean literal, a null
literal or anything else, each carrying its source range.  The extractor is
only run on ranges produced by parsing `content` itself, which are always
in bounds, so the in-bounds value of `expressionText` is used here. -/

/-- An HCL expression, as far as the extractor inspects it. -/
inductive HclExpr where
  | litString (s : GoStr) (rng : HclRange)
  | litBool (b : Bool) (rng : HclRange)
  | litNull (rng : HclRange)
  | other (rng : HclRange)
  deriving DecidableEq, Repr

/-- Source range of an expression (`Expr.Range()`). -/
def HclExpr.range : HclExpr → HclRange
  | .litString _ rng => rng
  | .litBool _ rng => rng
  | .litNull rng => rng
  | .other rng => rng

/-- A top-level HCL block. -/
structure HclBlock where
  btype : GoStr
  labels : List GoStr
  attrs : List (GoStr × HclExpr)
  deriving DecidableEq, Repr

/-- A parsed HCL file body (top-level blocks only). -/
structure HclBody where
  blocks : List HclBlock
  deriving DecidableEq, Repr

/-- A variable row as persisted by the indexer. -/
structure ModuleVariable where
  name : GoStr
  vtype : GoStr
  description : GoStr
  required : Bool
  sensitive : Bool
  defaultValue : GoStr
  deriving DecidableEq, Repr

/-- In-bounds value of `expressionText`, used by the extractor on
parser-produced (always in-bounds) ranges. -/
def expressionTextVal (content : GoStr) (rng : HclRange) : GoStr :=
  (expressionText content rng).getD []

/-- Model of Go `strings.EqualFold` (character-wise case folding). -/
def goEqualFold (s t : GoStr) : Bool := goToLower s == goToLower t

/-- Embedding of `attributeIsTrue`: a boolean literal yields its value,
anything else is compared case-insensitively against the text "true". -/
def attributeIsTrue (e : HclExpr) (content : GoStr) : Bool :=
  match e with
  | .litBool b _ => b
  | _ => goEqualFold (goTrimSpace (expressionTextVal content e.range)) (gs "true")

/-- Embedding of the per-block body of `extractVariables`. -/
def extractVariableBlock (block : HclBlock) (content : GoStr) : ModuleVariable :=
  let v : ModuleVariable :=
    { name := block.labels.headD [], vtype := [], description := [],
      required := true, sensitive := false, defaultValue := [] }
  let v :=
    match assocFind (gs "type") block.attrs with
    | some e => { v with vtype := goTrimSpace (expressionTextVal content e.range) }
    | none => v
  let v :=
    match assocFind (gs "description") block.attrs with
    | some (.litString s _) => { v with description := s }
    | some _ => v
    | none => v
  let v :=
    match assocFind (gs "default") block.attrs with
    | some e =>
      { v with required := false,
               defaultValue := goTrimSpace (expressionTextVal content e.range) }
    | none => v
  let v :=
    match assocFind (gs "sensitive") block.attrs with
    | some e => { v with sensitive := attributeIsTrue e content }
    | none => v
  v

/-- Embedding of `extractVariables`: walk the top-level blocks and build one
variable row per labeled `variable` block. -/
def extractVariables (body : HclBody) (content : GoStr) : List ModuleVariable :=
  go body.blocks
where
  go : List HclBlock → List ModuleVariable
  | [] => []
  | block :: rest =>
    if block.btype = gs "variable" ∧ block.labels ≠ [] then
      extractVariableBlock block content :: go rest
    else go rest

theorem extractVariableBlock_required (block : HclBlock) (content : GoStr) :
    (extractVariableBlock block content).required
      = (assocFind (gs "default") block.attrs).isNone := by
  simp only [extractVariableBlock]
  rcases h1 : assocFind (gs "type") block.attrs with _ | e1 <;>
    rcases h2 : assocFind (gs "description") block.attrs with _ | e2 <;>
    rcases h3 : assocFind (gs "default") block.attrs with _ | e3 <;>
    rcases h4 : assocFind (gs "sensitive") block.attrs with _ | e4 <;>
    first
      | rfl
      | (cases e2 <;> rfl)

/-- C3: for every variable block extracted by the structural extractor, the
required flag is true exactly when the block has no `default` attribute —
any `default` attribute, a literal `null` included, flips it to false.  The
extractor emits one row per labeled `variable` block, in block order, and
the rows' required flags are pointwise the absence of that block's
`default` attribute. -/
theorem extractVariables_required_iff_no_default (body : HclBody) (content : GoStr) :
    (extractVariables body content).map (·.required)
      = (body.blocks.filter
          (fun block => decide (block.btype = gs "variable" ∧ block.labels ≠ []))).map
        (fun block => (assocFind (gs "default") block.attrs).isNone) := by
  simp only [extractVariables]
  induction body.blocks with
  | nil => simp [extractVariables.go]
  | cons block rest ih =>
    by_cases h : block.btype = gs "variable" ∧ block.labels ≠ []
    · simp [extractVariables.go, List.filter_cons, h, ih,
        extractVariableBlock_required]
    · simp [extractVariables.go, List.filter_cons, h, ih]

/-! ## Archive ingestion (syncRepositoryFromArchive / ensureSubmoduleModule)

The tar stream is modeled as a list of entries; gzip/tar decoding is the
standard library's concern.  Store writes are modeled on their success
path: inserted files are accumulated in order, and `InsertModule` is
modeled as allocation of a fresh identifier from a counter that starts
above the root module's identifier. -/

/-- Full repository metadata used by the per-repository sync. -/
structure RepoInfo where
  name : GoStr
  fullName : GoStr
  description : GoStr
  updatedAt : GoStr
  htmlURL : GoStr
  deriving DecidableEq, Repr

/-- One tar archive entry (header fields plus decoded content). -/
structure TarEntry where
  hname : GoStr
  typeflag : Nat
  content : GoStr
  size : Int
  deriving DecidableEq, Repr

/-- Embedding of `isRegularFile` (`tar.TypeReg` is the byte '0' = 48). -/
def isRegularFile (typeflag : Nat) : Bool := typeflag == 48

/-- Model of Go `strings.SplitN s sep 2` for a one-character separator. -/
def splitN2 (sep : Char) (s : GoStr) : List GoStr :=
  match s.splitOn sep with
  | [] => [[]]
  | [p] => [p]
  | p :: rest => [p, List.intercalate [sep] rest]

/-- Embedding of `normalizeArchivePath`: strip the archive's synthetic
top-level directory; entries without a slash map to the empty path. -/
def normalizeArchivePath (name : GoStr) : GoStr :=
  match splitN2 '/' name with
  | [_, rest] => rest
  | _ => []

/-- Embedding of `shouldSkipPath`: skip when any path segment is a
version-control/dependency/tooling directory. -/
def shouldSkipPath (relativePath : GoStr) : Bool :=
  (relativePath.splitOn '/').any fun segment =>
    segment == gs ".git" || segment == gs ".github" || segment == gs "node_modules" ||
      segment == gs ".terraform"

/-- Model of Go `path.Base`. -/
def goPathBase (p : GoStr) : GoStr :=
  if p = [] then gs "."
  else
    let q := (p.reverse.dropWhile (· = '/')).reverse
    let last := ((q.splitOn '/').getLast?).getD []
    if last = [] then gs "/" else last

/-- Embedding of `getFileType`. -/
def getFileType (fileName : GoStr) : GoStr :=
  if (gs ".tf").isSuffixOf fileName then gs "terraform"
  else if (gs ".md").isSuffixOf fileName then gs "markdown"
  else if (gs ".yml").isSuffixOf fileName ∨ (gs ".yaml").isSuffixOf fileName then gs "yaml"
  else if (gs ".json").isSuffixOf fileName then gs "json"
  else gs "other"

/-- A persisted module file row. -/
structure ArchFile where
  moduleId : Int
  fileName : GoStr
  filePath : GoStr
  fileType : GoStr
  content : GoStr
  size : Int
  deriving DecidableEq, Repr

/-- State of one archive-ingestion pass: the fresh-identifier counter, the
`submoduleIDs` memo map, the `submoduleOrder` list, the submodule rows
created by `ensureSubmoduleModule`, the inserted file rows and the
`examplesFound` flag. -/
structure ArchState where
  nextId : Int
  subs : List (GoStr × Int)
  subOrder : List Int
  createdSubs : List (Int × GoStr)
  files : List ArchFile
  examplesFound : Bool
  deriving DecidableEq, Repr

/-- Embedding of `ensureSubmoduleModule`: insert (on the success path) a
module row named `<repo>//modules/<subKey>` and return its fresh
identifier. -/
def ensureSubmoduleModule (repo : RepoInfo) (subKey : GoStr) (st : ArchState) :
    ArchState × Int :=
  let submoduleName := repo.name ++ gs "//modules/" ++ subKey
  let id := st.nextId
  ({ st with nextId := id + 1,
             createdSubs := st.createdSubs ++ [(id, submoduleName)] }, id)

/-- Target-module resolution of the entry loop: a path under `modules/`
resolves to the memoized or freshly created submodule of its second
segment, anything else to the root module. -/
def resolveTarget (repo : RepoInfo) (moduleID : Int) (st : ArchState)
    (relativePath : GoStr) : ArchState × Int :=
  if (gs "modules/").isPrefixOf relativePath then
    match relativePath.splitOn '/' with
    | _ :: subKey :: _ =>
      match assocFind subKey st.subs with
      | some subID => (st, subID)
      | none =>
        let st' := (ensureSubmoduleModule repo subKey st).1
        let childID := (ensureSubmoduleModule repo subKey st).2
        ({ st' with subs := st'.subs ++ [(subKey, childID)],
                    subOrder := st'.subOrder ++ [childID] }, childID)
    | _ => (st, moduleID)
  else (st, moduleID)

/-- File insertion and examples detection of the entry loop. -/
def insertEntryFile (st1 : ArchState) (target : Int) (relativePath : GoStr)
    (e : TarEntry) : ArchState :=
  let fileName := goPathBase relativePath
  let file : ArchFile :=
    { moduleId := target, fileName := fileName, filePath := relativePath,
      fileType := getFileType fileName, content := e.content, size := e.size }
  let st2 := { st1 with files := st1.files ++ [file] }
  if (gs "examples/").isPrefixOf relativePath then { st2 with examplesFound := true }
  else st2

/-- One iteration of the entry loop of `syncRepositoryFromArchive`. -/
def archStep (repo : RepoInfo) (moduleID : Int) (st : ArchState) (e : TarEntry) :
    ArchState :=
  if ¬ isRegularFile e.typeflag then st
  else
    let relativePath := normalizeArchivePath e.hname
    if relativePath = [] then st
    else if shouldSkipPath relativePath then st
    else
      let stTarget := resolveTarget repo moduleID st relativePath
      insertEntryFile stTarget.1 stTarget.2 relativePath e

/-- Initial ingestion state: fresh identifiers start above the root
module's identifier. -/
def archInit (moduleID : Int) : ArchState :=
  { nextId := moduleID + 1, subs := [], subOrder := [], createdSubs := [],
    files := [], examplesFound := false }

/-- Embedding of the entry loop of `syncRepositoryFromArchive` over a
decoded tar stream. -/
def syncRepositoryFromArchive (repo : RepoInfo) (moduleID : Int)
    (entries : List TarEntry) : ArchState :=
  entries.foldl (archStep repo moduleID) (archInit moduleID)

/-- The submodule key of a retained path, exactly as the ingestion loop
computes it: defined whenever the path starts with "modules/" and splits
into at least two segments, and equal to the second segment. -/
def modKey (p : GoStr) : Option GoStr :=
  if (gs "modules/").isPrefixOf p then
    match p.splitOn '/' with
    | _ :: subKey :: _ => some subKey
    | _ => none
  else none

/-- Resolve a module identifier to the name of the module it denotes in
this pass: the root module's name, or the name of a created submodule. -/
def moduleNameOf (repo : RepoInfo) (moduleID : Int) (st : ArchState) (id : Int) :
    Option GoStr :=
  if id = moduleID then some repo.name else assocFind id st.createdSubs

/-- Invariant of the archive-ingestion state: the memo map has distinct
keys and distinct fresh identifiers, the created submodule rows correspond
exactly to the memo map with names `<repo>//modules/<key>`, identifiers lie
strictly between the root identifier and the counter, and every inserted
file is attached to the root module or to the memoized submodule of its
path's key. -/
def ArchInv (repo : RepoInfo) (moduleID : Int) (st : ArchState) : Prop :=
  moduleID < st.nextId ∧
  (st.subs.map Prod.fst).Nodup ∧
  (st.subs.map Prod.snd).Nodup ∧
  st.createdSubs = st.subs.map (fun kv => (kv.2, repo.name ++ gs "//modules/" ++ kv.1)) ∧
  (∀ kv ∈ st.subs, moduleID < kv.2 ∧ kv.2 < st.nextId) ∧
  (∀ f ∈ st.files,
    match modKey f.filePath with
    | some k => assocFind k st.subs = some f.moduleId
    | none => f.moduleId = moduleID)

theorem archInit_inv (repo : RepoInfo) (moduleID : Int) :
    ArchInv repo moduleID (archInit moduleID) := by
  refine ⟨by simp [archInit], by simp [archInit], by simp [archInit],
    by simp [archInit], by simp [archInit], by simp [archInit]⟩

theorem resolveTarget_inv (repo : RepoInfo) (moduleID : Int) (st : ArchState)
    (relativePath : GoStr) (h : ArchInv repo moduleID st) :
    ArchInv repo moduleID (resolveTarget repo moduleID st relativePath).1 ∧
    (resolveTarget repo moduleID st relativePath).1.files = st.files ∧
    (∀ k, modKey relativePath = some k →
      assocFind k (resolveTarget repo moduleID st relativePath).1.subs
        = some (resolveTarget repo moduleID st relativePath).2) ∧
    (modKey relativePath = none →
      (resolveTarget repo moduleID st relativePath).2 = moduleID) := by
  obtain ⟨hroot, hkeys, hids, hcorr, hbound, hfiles⟩ := h
  by_cases hpre : (gs "modules/").isPrefixOf relativePath
  · rcases hsplit : relativePath.splitOn '/' with _ | ⟨p0, _ | ⟨subKey, restParts⟩⟩
    · have hrt : resolveTarget repo moduleID st relativePath = (st, moduleID) := by
        unfold resolveTarget; rw [if_pos hpre, hsplit]
      have hmk : modKey relativePath = none := by
        unfold modKey; rw [if_pos hpre, hsplit]
      rw [hrt, hmk]
      exact ⟨⟨hroot, hkeys, hids, hcorr, hbound, hfiles⟩, rfl, by simp, fun _ => rfl⟩
    · have hrt : resolveTarget repo moduleID st relativePath = (st, moduleID) := by
        unfold resolveTarget; rw [if_pos hpre, hsplit]
      have hmk : modKey relativePath = none := by
        unfold modKey; rw [if_pos hpre, hsplit]
      rw [hrt, hmk]
      exact ⟨⟨hroot, hkeys, hids, hcorr, hbound, hfiles⟩, rfl, by simp, fun _ => rfl⟩
    · have hmk : modKey relativePath = some subKey := by
        unfold modKey; rw [if_pos hpre, hsplit]
      rcases hfind : assocFind subKey st.subs with _ | subID
      · -- fresh submodule
        have hrt : resolveTarget repo moduleID st relativePath =
            ({ nextId := st.nextId + 1,
               subs := st.subs ++ [(subKey, st.nextId)],
               subOrder := st.subOrder ++ [st.nextId],
               createdSubs := st.createdSubs
                 ++ [(st.nextId, repo.name ++ gs "//modules/" ++ subKey)],
               files := st.files, examplesFound := st.examplesFound }, st.nextId) := by
          unfold resolveTarget
          rw [if_pos hpre, hsplit]
          simp [hfind, ensureSubmoduleModule]
        rw [hrt, hmk]
        refine ⟨⟨by simp; omega, ?_, ?_, ?_, ?_, ?_⟩, rfl, ?_, by simp⟩
        · simp only [List.map_append, List.map_cons, List.map_nil]
          rw [List.nodup_append]
          refine ⟨hkeys, List.nodup_singleton _, ?_⟩
          intro a ha hb
          simp only [List.mem_singleton] at hb
          subst hb
          rw [List.mem_map] at ha
          obtain ⟨kv, hkv, hfst⟩ := ha
          exact (assocFind_eq_none_iff _ _ |>.mp hfind kv hkv) hfst
        · simp only [List.map_append, List.map_cons, List.map_nil]
          rw [List.nodup_append]
          refine ⟨hids, List.nodup_singleton _, ?_⟩
          intro a ha hb
          simp only [List.mem_singleton] at hb
          subst hb
          rw [List.mem_map] at ha
          obtain ⟨kv, hkv, hsnd⟩ := ha
          have := (hbound kv hkv).2
          omega
        · simp [hcorr]
        · intro kv hkv
          simp only [List.mem_append, List.mem_singleton] at hkv
          rcases hkv with hkv | hkv
          · have := hbound kv hkv
            simp only
            exact ⟨this.1, by omega⟩
          · subst hkv
            simp only
            exact ⟨hroot, by omega⟩
        · intro f hf
          have hold := hfiles f hf
          rcases hkey : modKey f.filePath with _ | k
          · simp only [hkey] at hold ⊢
            exact hold
          · simp only [hkey] at hold ⊢
            rw [assocFind_append, hold]
        · intro k hk
          simp only [Option.some.injEq] at hk
          subst hk
          simp only
          rw [assocFind_append, hfind]
          simp [assocFind]
      · -- memoized submodule
        have hrt : resolveTarget repo moduleID st relativePath = (st, subID) := by
          unfold resolveTarget
          rw [if_pos hpre, hsplit]
          simp [hfind]
        rw [hrt, hmk]
        refine ⟨⟨hroot, hkeys, hids, hcorr, hbound, hfiles⟩, rfl, ?_, by simp⟩
        intro k hk
        simp only [Option.some.injEq] at hk
        subst hk
        exact hfind
  · have hrt : resolveTarget repo moduleID st relativePath = (st, moduleID) := by
      unfold resolveTarget; rw [if_neg hpre]
    have hmk : modKey relativePath = none := by
      unfold modKey; rw [if_neg hpre]
    rw [hrt, hmk]
    exact ⟨⟨hroot, hkeys, hids, hcorr, hbound, hfiles⟩, rfl, by simp, fun _ => rfl⟩

theorem archInv_insertEntryFile (repo : RepoInfo) (moduleID : Int) (st1 : ArchState)
    (target : Int) (relativePath : GoStr) (e : TarEntry)
    (h1 : ArchInv repo moduleID st1)
    (h2 : match modKey relativePath with
          | some k => assocFind k st1.subs = some target
          | none => target = moduleID) :
    ArchInv repo moduleID (insertEntryFile st1 target relativePath e) := by
  obtain ⟨hroot, hkeys, hids, hcorr, hbound, hfiles⟩ := h1
  have hcore : ∀ flag : Bool, ArchInv repo moduleID
      { st1 with
        files := st1.files ++
          [{ moduleId := target, fileName := goPathBase relativePath,
             filePath := relativePath,
             fileType := getFileType (goPathBase relativePath),
             content := e.content, size := e.size }],
        examplesFound := flag } := by
    intro flag
    refine ⟨hroot, hkeys, hids, hcorr, hbound, ?_⟩
    intro g hg
    simp only [List.mem_append, List.mem_singleton] at hg
    rcases hg with hg | hg
    · exact hfiles g hg
    · subst hg
      exact h2
  unfold insertEntryFile
  by_cases hex : (gs "examples/").isPrefixOf relativePath
  · rw [if_pos hex]
    exact hcore true
  · rw [if_neg hex]
    exact hcore st1.examplesFound

theorem archStep_inv (repo : RepoInfo) (moduleID : Int) (st : ArchState) (e : TarEntry)
    (h : ArchInv repo moduleID st) :
    ArchInv repo moduleID (archStep repo moduleID st e) := by
  unfold archStep
  by_cases hreg : isRegularFile e.typeflag
  · simp only [hreg, not_true_eq_false, if_false]
    by_cases hempty : normalizeArchivePath e.hname = []
    · rw [if_pos hempty]; exact h
    · rw [if_neg hempty]
      by_cases hskip : shouldSkipPath (normalizeArchivePath e.hname)
      · rw [if_pos hskip]; exact h
      · rw [if_neg hskip]
        have hrt := resolveTarget_inv repo moduleID st (normalizeArchivePath e.hname) h
        refine archInv_insertEntryFile repo moduleID _ _ _ e hrt.1 ?_
        rcases hkey : modKey (normalizeArchivePath e.hname) with _ | k
        · exact hrt.2.2.2 hkey
        · exact hrt.2.2.1 k hkey
  · simp only [hreg, not_false_eq_true, if_true]
    exact h

theorem syncRepositoryFromArchive_inv (repo : RepoInfo) (moduleID : Int)
    (entries : List TarEntry) :
    ArchInv repo moduleID (syncRepositoryFromArchive repo moduleID entries) := by
  unfold syncRepositoryFromArchive
  have hgen : ∀ (l : List TarEntry) (st : ArchState), ArchInv repo moduleID st →
      ArchInv repo moduleID (l.foldl (archStep repo moduleID) st) := by
    intro l
    induction l with
    | nil => intro st hst; exact hst
    | cons e rest ih =>
      intro st hst
      rw [List.foldl_cons]
      exact ih _ (archStep_inv repo moduleID st e hst)
  exact hgen entries _ (archInit_inv repo moduleID)

theorem assocFind_map_pair {subs : List (GoStr × Int)} {k : GoStr} {id : Int}
    (nm : GoStr → GoStr)
    (hmem : (k, id) ∈ subs) (hnd : (subs.map Prod.snd).Nodup) :
    assocFind id (subs.map (fun kv => (kv.2, nm kv.1))) = some (nm k) := by
  induction subs with
  | nil => simp at hmem
  | cons kv rest ih =>
    obtain ⟨k', id'⟩ := kv
    simp only [List.map_cons, List.nodup_cons] at hnd
    rcases List.mem_cons.mp hmem with heq | hmem'
    · rw [Prod.ext_iff] at heq
      obtain ⟨hk, hid⟩ := heq
      simp only at hk hid
      subst hk; subst hid
      simp [assocFind]
    · have hidmem : id ∈ rest.map Prod.snd := List.mem_map.mpr ⟨(k, id), hmem', rfl⟩
      have hid : id' ≠ id := by
        intro hcontra
        exact hnd.1 (hcontra ▸ hidmem)
      simp only [List.map_cons, assocFind, if_neg hid]
      exact ih hmem' hnd.2

/-- The path shape the claim attributes to submodules: `modules/<name>/...`,
that is, a first segment `modules` followed by the submodule name followed
by at least one further segment. -/
def specModulesKey (p : GoStr) : Option GoStr :=
  match p.splitOn '/' with
  | m :: k :: rest => if m = gs "modules" ∧ rest ≠ [] then some k else none
  | _ => none

/-- Concrete repository used by the C4 counterexample and witness. -/
def repoX : RepoInfo :=
  ⟨gs "terraform-azure-x", gs "org/terraform-azure-x", gs "", gs "2024-01-01", gs "u"⟩

/-- Ingestion of a single retained file lying directly inside `modules/`
(no further directory level). -/
def archCounterexampleState : ArchState :=
  syncRepositoryFromArchive repoX 7 [⟨gs "top/modules/README.md", 48, gs "readme", 6⟩]

/-- C4 counterexample: the claim says every retained file whose path does
not begin with `modules/<name>/` is attached to the root module; but the
retained file `modules/README.md` — directly inside `modules/`, with no
second path level — is attached to a submodule named
`terraform-azure-x//modules/README.md`, not to the root module. -/
theorem archive_modules_file_counterexample :
    archCounterexampleState.files.map (fun f => (f.filePath, f.moduleId))
      = [(gs "modules/README.md", 8)] ∧
    specModulesKey (gs "modules/README.md") = none ∧
    moduleNameOf repoX 7 archCounterexampleState 8
      = some (gs "terraform-azure-x//modules/README.md") ∧
    moduleNameOf repoX 7 archCounterexampleState 8 ≠ some repoX.name := by
  refine ⟨by decide, by decide, by decide, by decide⟩

/-- C4 as amended: during archive ingestion, every retained file whose
path's first segment is `modules` and that has a second segment — whether
or not anything follows that segment — is attached to the submodule module
named `<repo>//modules/<second segment>`, and every retained file whose
path does not start with `modules/` is attached to the root module; at most
one submodule row is created per distinct name in the pass. -/
theorem archive_submodule_partition_amended (repo : RepoInfo) (moduleID : Int)
    (entries : List TarEntry) :
    (∀ f ∈ (syncRepositoryFromArchive repo moduleID entries).files,
      moduleNameOf repo moduleID (syncRepositoryFromArchive repo moduleID entries)
          f.moduleId
        = some (match modKey f.filePath with
                | some k => repo.name ++ gs "//modules/" ++ k
                | none => repo.name)) ∧
    (((syncRepositoryFromArchive repo moduleID entries).createdSubs.map Prod.snd).Nodup) := by
  obtain ⟨hroot, hkeys, hids, hcorr, hbound, hfiles⟩ :=
    syncRepositoryFromArchive_inv repo moduleID entries
  constructor
  · intro f hf
    have hcond := hfiles f hf
    rcases hkey : modKey f.filePath with _ | k
    · simp only [hkey] at hcond ⊢
      unfold moduleNameOf
      rw [if_pos hcond]
    · simp only [hkey] at hcond ⊢
      have hmem := assocFind_some_mem hcond
      have hne : f.moduleId ≠ moduleID := by
        have := (hbound _ hmem).1
        simp only at this
        omega
      unfold moduleNameOf
      rw [if_neg hne, hcorr]
      exact assocFind_map_pair _ hmem hids
  · rw [hcorr, List.map_map]
    have hcomp : (Prod.snd ∘ fun kv : GoStr × Int => (kv.2, repo.name ++ gs "//modules/" ++ kv.1))
        = (fun k => repo.name ++ gs "//modules/" ++ k) ∘ Prod.fst := rfl
    rw [hcomp, ← List.map_map]
    refine List.Nodup.map ?_ hkeys
    intro a b hab
    exact List.append_cancel_left hab

/-- Witness for the amended C4: a file `modules/foo/main.tf` is attached to
the submodule `terraform-azure-x//modules/foo` while the sibling root-level
`main.tf` is attached to the root module. -/
theorem archive_submodule_partition_amended_witness :
    moduleNameOf repoX 7
        (syncRepositoryFromArchive repoX 7
          [⟨gs "top/modules/foo/main.tf", 48, gs "c", 1⟩, ⟨gs "top/main.tf", 48, gs "c", 1⟩])
        8
      = some (gs "terraform-azure-x//modules/foo") ∧
    moduleNameOf repoX 7
        (syncRepositoryFromArchive repoX 7
          [⟨gs "top/modules/foo/main.tf", 48, gs "c", 1⟩, ⟨gs "top/main.tf", 48, gs "c", 1⟩])
        7
      = some repoX.name := by
  have h1 := (archive_submodule_partition_amended repoX 7
      [⟨gs "top/modules/foo/main.tf", 48, gs "c", 1⟩, ⟨gs "top/main.tf", 48, gs "c", 1⟩]).1
    ⟨8, gs "main.tf", gs "modules/foo/main.tf", gs "terraform", gs "c", 1⟩ (by decide)
  have h2 := (archive_submodule_partition_amended repoX 7
      [⟨gs "top/modules/foo/main.tf", 48, gs "c", 1⟩, ⟨gs "top/main.tf", 48, gs "c", 1⟩]).1
    ⟨7, gs "main.tf", gs "main.tf", gs "terraform", gs "c", 1⟩ (by decide)
  exact ⟨h1.trans (by decide), h2.trans (by decide)⟩

/-! ## Archive retrieval classification and per-repository rollback
(GitHubClient.getArchive / Syncer.syncRepository, sync.go)

`getArchive`'s HTTP handling is embedded as a pure classification of the
response status; `syncRepository`'s store interactions are embedded as an
event trace, with the pre-archive collaborator results (store lookup,
README fetch) passed as parameters. -/

/-- Decimal rendering of a natural number. -/
def natStr (n : Nat) : GoStr := (Nat.repr n).toList

/-- Errors produced by the fetch client for an archive request:
`contentUnavailable` embeds `ErrRepoContentUnavailable` wrapping, `apiError`
the generic non-success failure. -/
inductive FetchErr where
  | contentUnavailable (status : Nat)
  | apiError (status : Nat)
  deriving DecidableEq, Repr

/-- Embedding of the response handling of `getArchive`: a 404, 403 or 409
status is classified as the distinguished content-unavailable condition, any
other non-200 status as a generic API error, and a 200 response yields the
body. -/
def getArchiveStatus (status : Nat) (body : GoStr) : Except FetchErr GoStr :=
  if status = 404 ∨ status = 403 ∨ status = 409 then
    Except.error (FetchErr.contentUnavailable status)
  else if status ≠ 200 then Except.error (FetchErr.apiError status)
  else Except.ok body

/-- The archive result `syncRepository` observes for a given response
status: an error is propagated unchanged by `syncRepositoryFromArchive`, a
success is the decoded entry list. -/
def archiveFetchResult (status : Nat) (body : GoStr) (entries : List TarEntry) :
    Except FetchErr (List TarEntry) :=
  match getArchiveStatus status body with
  | Except.error e => Except.error e
  | Except.ok _ => Except.ok entries

/-- Store operations performed by the per-repository sync, as an event
trace. -/
inductive DbEvent where
  | insertModule (name : GoStr)
  | clearModuleData (id : Int)
  | deleteChildModules (name : GoStr)
  | deleteModuleByID (id : Int)
  | insertFile (moduleId : Int) (filePath : GoStr)
  | parseAndIndex (moduleId : Int)
  deriving DecidableEq, Repr

/-- Embedding of `Syncer.syncRepository` as an event trace plus an optional
returned error.  `moduleID` is the identifier returned by the initial module
upsert, `existedBefore` whether a prior module record was found (triggering
the clear of its children), `readme` the result of the best-effort README
fetch, and `archive` the outcome of the archive retrieval. -/
def syncRepository (repo : RepoInfo) (moduleID : Int) (existedBefore : Bool)
    (readme : Option GoStr) (archive : Except FetchErr (List TarEntry)) :
    List DbEvent × Option GoStr :=
  let ev := [DbEvent.insertModule repo.name]
  let ev := if existedBefore then ev ++ [DbEvent.clearModuleData moduleID] else ev
  let ev := match readme with
    | some _ => ev ++ [DbEvent.insertModule repo.name]
    | none => ev
  let ev := ev ++ [DbEvent.deleteChildModules repo.name]
  match archive with
  | Except.error (FetchErr.contentUnavailable _) =>
    (ev ++ [DbEvent.deleteModuleByID moduleID], none)
  | Except.error (FetchErr.apiError s) =>
    (ev, some (gs "failed to sync files: GitHub API error: " ++ natStr s))
  | Except.ok entries =>
    let st := syncRepositoryFromArchive repo moduleID entries
    let ev := ev ++ st.files.map (fun f => DbEvent.insertFile f.moduleId f.filePath)
    let ev := ev ++ [DbEvent.parseAndIndex moduleID]
    let ev := ev ++ st.subOrder.map DbEvent.parseAndIndex
    let ev := if st.examplesFound then ev ++ [DbEvent.insertModule repo.name] else ev
    (ev, none)

/-- C5: a 404, 403 or 409 archive response is classified as the
distinguished content-unavailable condition; on it the per-repository sync
deletes the just-created module record, inserts no file, and returns
without an error — so the repository contributes no partial entry and, the
pass loop recording only returned errors, subsequent repositories are still
processed. -/
theorem syncRepository_content_unavailable_rollback
    (repo : RepoInfo) (moduleID : Int) (existedBefore : Bool) (readme : Option GoStr)
    (status : Nat) (body : GoStr) (entries : List TarEntry)
    (hstatus : status = 404 ∨ status = 403 ∨ status = 409) :
    getArchiveStatus status body = Except.error (FetchErr.contentUnavailable status) ∧
    (syncRepository repo moduleID existedBefore readme
        (archiveFetchResult status body entries)).2 = none ∧
    DbEvent.deleteModuleByID moduleID ∈
      (syncRepository repo moduleID existedBefore readme
        (archiveFetchResult status body entries)).1 ∧
    (∀ id p, DbEvent.insertFile id p ∉
      (syncRepository repo moduleID existedBefore readme
        (archiveFetchResult status body entries)).1) := by
  have hclass : getArchiveStatus status body
      = Except.error (FetchErr.contentUnavailable status) := by
    unfold getArchiveStatus
    rw [if_pos hstatus]
  have hfetch : archiveFetchResult status body entries
      = Except.error (FetchErr.contentUnavailable status) := by
    unfold archiveFetchResult
    rw [hclass]
  rw [hfetch]
  refine ⟨hclass, ?_, ?_, ?_⟩
  · cases existedBefore <;> rcases readme with _ | r <;> simp [syncRepository]
  · cases existedBefore <;> rcases readme with _ | r <;> simp [syncRepository]
  · intro id p
    cases existedBefore <;> rcases readme with _ | r <;> simp [syncRepository]

/-- Witness for C5 at a concrete repository, status 404 and a nonempty
decoded entry list. -/
theorem syncRepository_content_unavailable_rollback_witness :
    getArchiveStatus 404 (gs "x") = Except.error (FetchErr.contentUnavailable 404) ∧
    (syncRepository repoX 7 true (some (gs "readme"))
        (archiveFetchResult 404 (gs "x") [⟨gs "top/main.tf", 48, gs "c", 1⟩])).2 = none ∧
    DbEvent.deleteModuleByID 7 ∈
      (syncRepository repoX 7 true (some (gs "readme"))
        (archiveFetchResult 404 (gs "x") [⟨gs "top/main.tf", 48, gs "c", 1⟩])).1 ∧
    (∀ id p, DbEvent.insertFile id p ∉
      (syncRepository repoX 7 true (some (gs "readme"))
        (archiveFetchResult 404 (gs "x") [⟨gs "top/main.tf", 48, gs "c", 1⟩])).1) :=
  syncRepository_content_unavailable_rollback repoX 7 true (some (gs "readme"))
    404 (gs "x") [⟨gs "top/main.tf", 48, gs "c", 1⟩] (Or.inl rfl)

/-! ## Incremental sync (Syncer.SyncUpdates, sync.go)

The loop over the discovered repositories is embedded with the store lookup
(`GetModule`) and the per-repository sync outcome passed as oracles: the
lookup returns the persisted module row if any (a lookup error and a nil
row behave identically in the source — both proceed to sync), and the sync
outcome is `none` for success or `some err` for failure.  The returned
invocation log records exactly the repositories passed to
`syncRepository`, which is what "structural entities left untouched" means
for the skipped ones. -/

/-- The persisted module row, as far as the freshness check reads it. -/
structure DbModule where
  lastUpdated : GoStr
  deriving DecidableEq, Repr

/-- Progress summary returned by a sync pass. -/
structure SyncProgress where
  totalRepos : Nat
  processedRepos : Nat
  skippedRepos : Nat
  errors : List GoStr
  updatedRepos : List GoStr
  deriving DecidableEq, Repr

/-- The freshness check of `SyncUpdates`: skip exactly when a module row is
persisted and its stored marker is string-equal to the remote marker. -/
def skipRepo (dbGet : GoStr → Option DbModule) (r : RepoInfo) : Bool :=
  match dbGet r.name with
  | some m => m.lastUpdated == r.updatedAt
  | none => false

/-- Error string recorded for a failed repository sync. -/
def errMsgFor (r : RepoInfo) (err : GoStr) : GoStr :=
  gs "Failed to sync " ++ r.name ++ gs ": " ++ err

/-- Progress update for one processed (non-skipped) repository. -/
def syncProcess (syncRes : RepoInfo → Option GoStr) (r : RepoInfo)
    (p : SyncProgress) : SyncProgress :=
  match syncRes r with
  | some err =>
    { p with errors := p.errors ++ [errMsgFor r err],
             processedRepos := p.processedRepos + 1 }
  | none =>
    { p with updatedRepos := p.updatedRepos ++ [r.name],
             processedRepos := p.processedRepos + 1 }

/-- Embedding of the repository loop of `SyncUpdates`, also returning the
log of repositories actually passed to `syncRepository`. -/
def syncUpdatesLoop (dbGet : GoStr → Option DbModule) (syncRes : RepoInfo → Option GoStr) :
    List RepoInfo → SyncProgress → List RepoInfo → SyncProgress × List RepoInfo
  | [], p, log => (p, log)
  | r :: rest, p, log =>
    match dbGet r.name with
    | some m =>
      if m.lastUpdated = r.updatedAt then
        syncUpdatesLoop dbGet syncRes rest
          { p with skippedRepos := p.skippedRepos + 1,
                   processedRepos := p.processedRepos + 1 } log
      else syncUpdatesLoop dbGet syncRes rest (syncProcess syncRes r p) (log ++ [r])
    | none => syncUpdatesLoop dbGet syncRes rest (syncProcess syncRes r p) (log ++ [r])

/-- Embedding of `SyncUpdates` over the discovered repository list. -/
def syncUpdates (dbGet : GoStr → Option DbModule) (syncRes : RepoInfo → Option GoStr)
    (repos : List RepoInfo) : SyncProgress × List RepoInfo :=
  syncUpdatesLoop dbGet syncRes repos
    { totalRepos := repos.length, processedRepos := 0, skippedRepos := 0,
      errors := [], updatedRepos := [] } []

theorem syncUpdatesLoop_spec (dbGet : GoStr → Option DbModule)
    (syncRes : RepoInfo → Option GoStr) :
    ∀ (repos : List RepoInfo) (p : SyncProgress) (log : List RepoInfo),
      (syncUpdatesLoop dbGet syncRes repos p log).2
        = log ++ repos.filter (fun r => !skipRepo dbGet r) ∧
      (syncUpdatesLoop dbGet syncRes repos p log).1.updatedRepos
        = p.updatedRepos ++
          (repos.filter (fun r => !skipRepo dbGet r && (syncRes r).isNone)).map (·.name) ∧
      (syncUpdatesLoop dbGet syncRes repos p log).1.skippedRepos
        = p.skippedRepos + (repos.filter (fun r => skipRepo dbGet r)).length ∧
      (syncUpdatesLoop dbGet syncRes repos p log).1.processedRepos
        = p.processedRepos + repos.length ∧
      (syncUpdatesLoop dbGet syncRes repos p log).1.errors
        = p.errors ++
          (repos.filter (fun r => !skipRepo dbGet r && (syncRes r).isSome)).map
            (fun r => errMsgFor r ((syncRes r).getD [])) := by
  intro repos
  induction repos with
  | nil => intro p log; simp [syncUpdatesLoop]
  | cons r rest ih =>
    intro p log
    rcases hdb : dbGet r.name with _ | m
    · have hskip : skipRepo dbGet r = false := by simp [skipRepo, hdb]
      rcases hres : syncRes r with _ | err
      · simp [syncUpdatesLoop, hdb, hskip, hres, syncProcess, ih, List.filter_cons] <;> omega
      · simp [syncUpdatesLoop, hdb, hskip, hres, syncProcess, ih, List.filter_cons] <;> omega
    · by_cases heq : m.lastUpdated = r.updatedAt
      · have hskip : skipRepo dbGet r = true := by simp [skipRepo, hdb, heq]
        simp [syncUpdatesLoop, hdb, heq, hskip, ih, List.filter_cons] <;> omega
      · have hskip : skipRepo dbGet r = false := by simp [skipRepo, hdb, heq]
        rcases hres : syncRes r with _ | err
        · simp [syncUpdatesLoop, hdb, heq, hskip, hres, syncProcess, ih, List.filter_cons] <;> omega
        · simp [syncUpdatesLoop, hdb, heq, hskip, hres, syncProcess, ih, List.filter_cons] <;> omega

/-- C1: in an incremental sync pass, a repository is passed to the
per-repository sync exactly when no module row is persisted for it or the
persisted marker differs from the remote marker (so a repository skipped by
exact string equality is never re-synced and its structural entities are
left untouched); the skipped counter counts exactly the skipped
repositories, every repository counts as processed, and the returned
updated-names list is exactly the names, in order, of the non-skipped
repositories whose sync succeeded. -/
theorem syncUpdates_incremental_contract (dbGet : GoStr → Option DbModule)
    (syncRes : RepoInfo → Option GoStr) (repos : List RepoInfo) :
    (syncUpdates dbGet syncRes repos).2
      = repos.filter (fun r => !skipRepo dbGet r) ∧
    (syncUpdates dbGet syncRes repos).1.updatedRepos
      = (repos.filter (fun r => !skipRepo dbGet r && (syncRes r).isNone)).map (·.name) ∧
    (syncUpdates dbGet syncRes repos).1.skippedRepos
      = (repos.filter (fun r => skipRepo dbGet r)).length ∧
    (syncUpdates dbGet syncRes repos).1.processedRepos = repos.length ∧
    (syncUpdates dbGet syncRes repos).1.errors
      = (repos.filter (fun r => !skipRepo dbGet r && (syncRes r).isSome)).map
          (fun r => errMsgFor r ((syncRes r).getD [])) := by
  have h := syncUpdatesLoop_spec dbGet syncRes repos
    { totalRepos := repos.length, processedRepos := 0, skippedRepos := 0,
      errors := [], updatedRepos := [] } []
  simpa [syncUpdates] using h

/-! ## Changelog release entries
(parseReleaseEntriesFromBlock / safeSlug / slugifyToken, tools_releases.go)

The release block is parsed line by line; the `sql.NullString` identifier
is modeled as a plain string (its Valid bit is always set for the nonempty
titles that produce entries). -/

/-- One parsed release entry.  The Go field `Section` is called
`sectionName` here because `section` is a Lean keyword. -/
structure ModuleReleaseEntry where
  sectionName : GoStr
  entryKey : GoStr
  title : GoStr
  orderIndex : Nat
  identifier : GoStr
  deriving DecidableEq, Repr

/-- Embedding of `ifEmpty`. -/
def ifEmpty (val fallback : GoStr) : GoStr :=
  if goTrimSpace val = [] then fallback else val

/-- The character loop shared by `safeSlug` and `slugifyToken`: keep ASCII
lowercase letters and digits, replace anything else by a dash. -/
def slugChars (s : GoStr) : GoStr :=
  s.map fun c => if ('a' ≤ c ∧ c ≤ 'z') ∨ ('0' ≤ c ∧ c ≤ '9') then c else '-'

/-- Embedding of `safeSlug`. -/
def safeSlug (s : GoStr) : GoStr :=
  let s := goToLower (goTrimSpace s)
  if s = [] then gs "section"
  else goTrimCutset (slugChars s) ['-']

/-- Embedding of `slugifyToken`. -/
def slugifyToken (value : GoStr) : GoStr :=
  let value := goToLower (goTrimSpace value)
  if value = [] then []
  else goTrimCutset (slugChars value) ['-']

/-- Model of the Go format verb `%04d` for a non-negative count. -/
def pad4 (n : Nat) : GoStr :=
  let s := natStr n
  List.replicate (4 - s.length) '0' ++ s

/-- Embedding of the line loop of `parseReleaseEntriesFromBlock`, with the
current sub-section label and entry counter as explicit state. -/
def parseReleaseEntriesLines : List GoStr → GoStr → Nat → List ModuleReleaseEntry
  | [], _, _ => []
  | line :: rest, sectionLabel, order =>
    let t := goTrimSpace line
    if (gs "## ").isPrefixOf t then parseReleaseEntriesLines rest sectionLabel order
    else if (gs "### ").isPrefixOf t then
      parseReleaseEntriesLines rest (goTrimSpace (t.drop 4)) order
    else if (gs "-").isPrefixOf t ∨ (gs "*").isPrefixOf t then
      let title := goTrimSpace (goTrimLeftCutset t ['-', '*', ' '])
      if title = [] then parseReleaseEntriesLines rest sectionLabel order
      else
        { sectionName := ifEmpty sectionLabel (gs "Other"),
          entryKey := safeSlug sectionLabel ++ gs "-" ++ pad4 order,
          title := title, orderIndex := order,
          identifier := slugifyToken title }
          :: parseReleaseEntriesLines rest sectionLabel (order + 1)
    else parseReleaseEntriesLines rest sectionLabel order

/-- Embedding of `parseReleaseEntriesFromBlock`. -/
def parseReleaseEntriesFromBlock (block : GoStr) : List ModuleReleaseEntry :=
  parseReleaseEntriesLines (block.splitOn '\n') [] 0

theorem dropWhile_append_of_eq_self {α : Type} (p : α → Bool) (xs ys : List α)
    (hne : xs ≠ []) (h : xs.dropWhile p = xs) :
    (xs ++ ys).dropWhile p = xs ++ ys := by
  cases xs with
  | nil => exact absurd rfl hne
  | cons c t =>
    have hc : ¬ p c = true := by
      intro hc
      rw [List.dropWhile_cons, if_pos hc] at h
      have hlen := congrArg List.length h
      have hle := (List.dropWhile_suffix (l := t) p).length_le
      simp only [List.length_cons] at hlen
      omega
    rw [List.cons_append, List.dropWhile_cons, if_neg hc]

theorem goTrimLeft_eq_self_of_trimSpace {a : GoStr} (h : goTrimSpace a = a) :
    goTrimLeft a = a := by
  have hsuffix : goTrimLeft a <:+ a := List.dropWhile_suffix _
  have h2 : (goTrimLeft a).length ≤ a.length := List.IsSuffix.length_le hsuffix
  have h3 : a.length ≤ (goTrimLeft a).length := by
    conv_lhs => rw [← h]
    unfold goTrimSpace goTrimRight
    simpa using (List.dropWhile_suffix (l := (goTrimLeft a).reverse) goIsSpace).length_le
  exact hsuffix.eq_of_length (le_antisymm h2 h3)

theorem goTrimRight_eq_self_of_trimSpace {a : GoStr} (h : goTrimSpace a = a) :
    goTrimRight a = a := by
  have hl := goTrimLeft_eq_self_of_trimSpace h
  unfold goTrimSpace at h
  rw [hl] at h
  exact h

theorem goTrimRight_append {l m : GoStr} (hne : m ≠ []) (h : goTrimRight m = m) :
    goTrimRight (l ++ m) = l ++ m := by
  unfold goTrimRight at h ⊢
  have h' : m.reverse.dropWhile goIsSpace = m.reverse := by
    have := congrArg List.reverse h
    simpa using this
  rw [List.reverse_append,
    dropWhile_append_of_eq_self _ _ _ (by simpa using hne) h']
  simp

theorem goTrimSpace_bullet {a : GoStr} (h : goTrimSpace a = a) (hne : a ≠ []) :
    goTrimSpace ('-' :: ' ' :: a) = '-' :: ' ' :: a := by
  have hR := goTrimRight_eq_self_of_trimSpace h
  unfold goTrimSpace
  have hL : goTrimLeft ('-' :: ' ' :: a) = '-' :: ' ' :: a := by
    unfold goTrimLeft
    rw [List.dropWhile_cons, if_neg (by decide)]
  rw [hL, show ('-' :: ' ' :: a) = ['-', ' '] ++ a from rfl,
    goTrimRight_append hne hR]

theorem goTrimLeftCutset_bullet {a : GoStr} (hne : a ≠ [])
    (hH : ∀ c ∈ a.head?, c ∉ (['-', '*', ' '] : List Char)) :
    goTrimLeftCutset ('-' :: ' ' :: a) ['-', '*', ' '] = a := by
  unfold goTrimLeftCutset
  rw [List.dropWhile_cons, if_pos (by decide), List.dropWhile_cons, if_pos (by decide)]
  cases a with
  | nil => exact absurd rfl hne
  | cons c t =>
    have hc := hH c rfl
    rw [List.dropWhile_cons, if_neg (by simpa using hc)]

theorem parseStep_heading (ls : List GoStr) (sec : GoStr) (ord : Nat) :
    parseReleaseEntriesLines (gs "### Features" :: ls) sec ord
      = parseReleaseEntriesLines ls (gs "Features") ord := by
  simp only [parseReleaseEntriesLines]
  rw [if_neg (by decide), if_pos (by decide),
    show goTrimSpace ((goTrimSpace (gs "### Features")).drop 4) = gs "Features" by decide]

theorem parseStep_bullet (ls : List GoStr) (sec : GoStr) (ord : Nat) (a : GoStr)
    (h : goTrimSpace a = a) (hne : a ≠ [])
    (hH : ∀ c ∈ a.head?, c ∉ (['-', '*', ' '] : List Char)) :
    parseReleaseEntriesLines (('-' :: ' ' :: a) :: ls) sec ord
      = { sectionName := ifEmpty sec (gs "Other"),
          entryKey := safeSlug sec ++ gs "-" ++ pad4 ord,
          title := a, orderIndex := ord, identifier := slugifyToken a }
        :: parseReleaseEntriesLines ls sec (ord + 1) := by
  simp only [parseReleaseEntriesLines]
  rw [goTrimSpace_bullet h hne]
  rw [if_neg (by simp [show (gs "## ").isPrefixOf ('-' :: ' ' :: a) = false from rfl]),
    if_neg (by simp [show (gs "### ").isPrefixOf ('-' :: ' ' :: a) = false from rfl]),
    if_pos (Or.inl (show (gs "-").isPrefixOf ('-' :: ' ' :: a) = true from rfl))]
  rw [goTrimLeftCutset_bullet hne hH, h, if_neg hne]

/-- C6: a release block consisting of one `### Features` sub-heading
followed by two bullet lines (with well-formed single-line titles) parses
to exactly two entries, both in section "Features", with order indices 0
and 1 in appearance order and with the distinct, zero-padded entry keys
`features-0000` and `features-0001` built from the slug of the section
name. -/
theorem parseRelease_two_features_entries (a b : GoStr)
    (haT : goTrimSpace a = a) (haN : a ≠ [])
    (haH : ∀ c ∈ a.head?, c ∉ (['-', '*', ' '] : List Char)) (haNL : '\n' ∉ a)
    (hbT : goTrimSpace b = b) (hbN : b ≠ [])
    (hbH : ∀ c ∈ b.head?, c ∉ (['-', '*', ' '] : List Char)) (hbNL : '\n' ∉ b) :
    parseReleaseEntriesFromBlock (gs "### Features\n- " ++ a ++ gs "\n- " ++ b)
      = [⟨gs "Features", gs "features-0000", a, 0, slugifyToken a⟩,
         ⟨gs "Features", gs "features-0001", b, 1, slugifyToken b⟩] ∧
    (gs "features-0000" : GoStr) ≠ gs "features-0001" := by
  refine ⟨?_, by decide⟩
  unfold parseReleaseEntriesFromBlock
  have hx : ∀ l ∈ [gs "### Features", gs "- " ++ a, gs "- " ++ b], '\n' ∉ l := by
    intro l hl
    simp only [List.mem_cons, List.not_mem_nil, or_false] at hl
    rcases hl with rfl | rfl | rfl
    · decide
    · intro hmem
      rcases List.mem_append.mp hmem with hmem | hmem
      · exact absurd hmem (by decide)
      · exact haNL hmem
    · intro hmem
      rcases List.mem_append.mp hmem with hmem | hmem
      · exact absurd hmem (by decide)
      · exact hbNL hmem
  have hinter : ['\n'].intercalate [gs "### Features", gs "- " ++ a, gs "- " ++ b]
      = gs "### Features\n- " ++ a ++ gs "\n- " ++ b := by
    simp only [List.intercalate, List.intersperse, List.flatten, List.append_nil]
    rw [show gs "### Features\n- " = gs "### Features" ++ '\n' :: gs "- " from rfl,
      show gs "\n- " = '\n' :: gs "- " from rfl]
    simp [List.append_assoc]
  have hsplitn : (gs "### Features\n- " ++ a ++ gs "\n- " ++ b).splitOn '\n'
      = [gs "### Features", gs "- " ++ a, gs "- " ++ b] := by
    rw [← hinter]
    exact List.splitOn_intercalate _ '\n' hx (by simp)
  rw [hsplitn,
    show gs "- " ++ a = '-' :: ' ' :: a from rfl,
    show gs "- " ++ b = '-' :: ' ' :: b from rfl,
    parseStep_heading, parseStep_bullet _ _ _ a haT haN haH,
    parseStep_bullet _ _ _ b hbT hbN hbH]
  rw [show parseReleaseEntriesLines [] (gs "Features") 2 = [] from rfl,
    show ifEmpty (gs "Features") (gs "Other") = gs "Features" from by decide,
    show safeSlug (gs "Features") ++ gs "-" ++ pad4 0 = gs "features-0000" from by decide,
    show safeSlug (gs "Features") ++ gs "-" ++ pad4 1 = gs "features-0001" from by decide]

/-- Witness for C6 at two concrete bullet titles. -/
theorem parseRelease_two_features_entries_witness :
    parseReleaseEntriesFromBlock
        (gs "### Features\n- " ++ gs "add foo" ++ gs "\n- " ++ gs "add bar")
      = [⟨gs "Features", gs "features-0000", gs "add foo", 0, slugifyToken (gs "add foo")⟩,
         ⟨gs "Features", gs "features-0001", gs "add bar", 1, slugifyToken (gs "add bar")⟩] ∧
    (gs "features-0000" : GoStr) ≠ gs "features-0001" :=
  parseRelease_two_features_entries (gs "add foo") (gs "add bar")
    (by decide) (by decide) (by decide) (by decide)
    (by decide) (by decide) (by decide) (by decide)

/-! ## Release diff matcher
(scorePatchCandidate / locatePatchForEntry, tools_releases.go) -/

/-- One changed file of a two-ref comparison payload. -/
structure GitHubCompareFile where
  filename : GoStr
  patch : GoStr
  deriving DecidableEq, Repr

/-- Token sets built for a release entry (`releaseEntryTargets`). -/
structure ReleaseEntryTargets where
  filenameTokens : List GoStr
  contentTokens : List GoStr
  fallbackContentToken : GoStr
  deriving DecidableEq, Repr

/-- One `score += k` / `score -= k` step of the scoring walk, guarded by
its condition (k is negative for the penalty steps). -/
def addIf (c : Prop) [Decidable c] (k : Int) (s : Int) : Int :=
  if c then s + k else s

/-- Embedding of `scorePatchCandidate`, accumulating the weights in source
order.  `len(patch)` is the character count (byte count for the ASCII
diffs scored here). -/
def scorePatchCandidate (filename patch : GoStr) (targets : ReleaseEntryTargets) : Int :=
  let lowerPath := goToLower (filename.map fun c => if c = '\\' then '/' else c)
  let lowerPatch := goToLower patch
  let score : Int := 0
  let score := addIf ((gs ".tf").isSuffixOf lowerPath) 150 score
  let score := addIf (goContains lowerPath (gs "/modules/")) 20 score
  let score := addIf (goContains lowerPath (gs "/examples/")) (-60) score
  let score := addIf ((gs ".md").isSuffixOf lowerPath ∨ goContains lowerPath (gs "changelog"))
    (-180) score
  let score := addIf (goContains lowerPath (gs "/test")) (-40) score
  let score := targets.filenameTokens.foldl
    (fun s tok => addIf (!tok.isEmpty && goContains lowerPath tok) 35 s) score
  let score := targets.contentTokens.foldl
    (fun s tok => addIf (!tok.isEmpty && goContains lowerPatch tok) 20 s) score
  let score := addIf (!targets.fallbackContentToken.isEmpty &&
      goContains lowerPatch targets.fallbackContentToken) 10 score
  score + ((patch.length / 400 : Nat) : Int)

/-- The score as the specification documents it: the sum of the weight
table — +150 configuration extension, +20 modules path segment, −60
examples path segment, −180 documentation/changelog, −40 test path, +35
per filename-token match, +20 per content-token match, +10 for the fallback
token, plus patch length divided by 400. -/
def scorePatchSpec (filename patch : GoStr) (targets : ReleaseEntryTargets) : Int :=
  let lowerPath := goToLower (filename.map fun c => if c = '\\' then '/' else c)
  let lowerPatch := goToLower patch
  (if (gs ".tf").isSuffixOf lowerPath then (150 : Int) else 0)
    + (if goContains lowerPath (gs "/modules/") then 20 else 0)
    - (if goContains lowerPath (gs "/examples/") then 60 else 0)
    - (if (gs ".md").isSuffixOf lowerPath ∨ goContains lowerPath (gs "changelog")
        then 180 else 0)
    - (if goContains lowerPath (gs "/test") then 40 else 0)
    + 35 * (targets.filenameTokens.countP
        (fun tok => !tok.isEmpty && goContains lowerPath tok) : Int)
    + 20 * (targets.contentTokens.countP
        (fun tok => !tok.isEmpty && goContains lowerPatch tok) : Int)
    + (if !targets.fallbackContentToken.isEmpty &&
        goContains lowerPatch targets.fallbackContentToken then 10 else 0)
    + ((patch.length / 400 : Nat) : Int)

theorem addIf_eq (c : Prop) [Decidable c] (k s : Int) :
    addIf c k s = s + (if c then k else 0) := by
  unfold addIf
  split_ifs <;> ring

theorem addIf_neg_eq (c : Prop) [Decidable c] (k s : Int) :
    addIf c (-k) s = s - (if c then k else 0) := by
  unfold addIf
  split_ifs <;> ring

theorem foldl_addIf_count {α : Type} (p : α → Bool) (k : Int) :
    ∀ (l : List α) (init : Int),
      l.foldl (fun s tok => addIf (p tok) k s) init
        = init + k * (l.countP p : Int) := by
  intro l
  induction l with
  | nil => intro init; simp
  | cons x xs ih =>
    intro init
    rw [List.foldl_cons, addIf_eq, ih, List.countP_cons]
    by_cases h : p x
    · rw [if_pos h, if_pos h]
      push_cast
      ring
    · rw [if_neg h, if_neg h]
      push_cast
      ring

theorem scorePatch_eq_spec (filename patch : GoStr) (targets : ReleaseEntryTargets) :
    scorePatchCandidate filename patch targets = scorePatchSpec filename patch targets := by
  simp only [scorePatchCandidate, scorePatchSpec]
  rw [foldl_addIf_count, foldl_addIf_count, addIf_neg_eq, addIf_neg_eq, addIf_neg_eq,
    addIf_eq, addIf_eq, addIf_eq]
  ring

theorem scorePatch_lb (filename patch : GoStr) (targets : ReleaseEntryTargets) :
    -280 ≤ scorePatchCandidate filename patch targets := by
  rw [scorePatch_eq_spec]
  simp only [scorePatchSpec]
  split_ifs <;> omega

/-- The changed files with a nonempty patch, in encounter order — the
candidates the matcher actually scores. -/
def patchCands (files : List GitHubCompareFile) : List GitHubCompareFile :=
  files.filter fun f => !f.patch.isEmpty

/-- Score of one candidate. -/
def candScore (targets : ReleaseEntryTargets) (f : GitHubCompareFile) : Int :=
  scorePatchCandidate f.filename f.patch targets

/-- Embedding of the loop of `locatePatchForEntry`: keep the best score
seen so far, replacing it only on a strict improvement. -/
def locateLoop (targets : ReleaseEntryTargets) :
    List GitHubCompareFile → Int × GoStr × GoStr → Int × GoStr × GoStr
  | [], best => best
  | file :: rest, best =>
    if file.patch.isEmpty then locateLoop targets rest best
    else
      let score := scorePatchCandidate file.filename file.patch targets
      if best.1 < score then locateLoop targets rest (score, file.filename, file.patch)
      else locateLoop targets rest best

/-- Embedding of `locatePatchForEntry` (the compare payload is its changed
file list; a nil payload is the empty list). -/
def locatePatchForEntry (files : List GitHubCompareFile)
    (targets : ReleaseEntryTargets) : GoStr × GoStr :=
  let r := locateLoop targets files (-(2 ^ 30 : Int), [], [])
  (r.2.1, r.2.2)

/-- The loop restricted to the candidates with a nonempty patch. -/
def bestFold (targets : ReleaseEntryTargets) :
    List GitHubCompareFile → Int × GoStr × GoStr → Int × GoStr × GoStr
  | [], best => best
  | f :: rest, best =>
    if best.1 < candScore targets f then
      bestFold targets rest (candScore targets f, f.filename, f.patch)
    else bestFold targets rest best

theorem locateLoop_eq_bestFold (targets : ReleaseEntryTargets) :
    ∀ (files : List GitHubCompareFile) (best : Int × GoStr × GoStr),
      locateLoop targets files best = bestFold targets (patchCands files) best := by
  intro files
  induction files with
  | nil => intro best; simp [locateLoop, patchCands, bestFold]
  | cons f rest ih =>
    intro best
    by_cases hp : f.patch.isEmpty
    · have h1 : locateLoop targets (f :: rest) best = locateLoop targets rest best := by
        simp only [locateLoop]
        rw [if_pos hp]
      have h2 : patchCands (f :: rest) = patchCands rest := by
        simp only [patchCands, List.filter_cons]
        rw [show (!f.patch.isEmpty) = false from by simp [hp]]
        simp
      rw [h1, h2]
      exact ih best
    · have h2 : patchCands (f :: rest) = f :: patchCands rest := by
        simp only [patchCands, List.filter_cons]
        rw [show (!f.patch.isEmpty) = true from by simp [hp]]
        simp
      rw [h2]
      simp only [locateLoop, bestFold, candScore]
      rw [if_neg hp]
      by_cases hlt : best.1 < scorePatchCandidate f.filename f.patch targets
      · rw [if_pos hlt, if_pos hlt, ih]
      · rw [if_neg hlt, if_neg hlt, ih]

theorem bestFold_noimprove (targets : ReleaseEntryTargets) :
    ∀ (cands : List GitHubCompareFile) (best : Int × GoStr × GoStr),
      (∀ f ∈ cands, candScore targets f ≤ best.1) →
      bestFold targets cands best = best := by
  intro cands
  induction cands with
  | nil => intro best _; rfl
  | cons f rest ih =>
    intro best hall
    have hf : ¬ best.1 < candScore targets f :=
      not_lt.mpr (hall f (List.mem_cons_self f rest))
    simp only [bestFold, if_neg hf]
    exact ih best fun g hg => hall g (List.mem_cons_of_mem f hg)

theorem bestFold_argmax (targets : ReleaseEntryTargets) :
    ∀ (cands : List GitHubCompareFile) (best : Int × GoStr × GoStr),
      (∃ f ∈ cands, best.1 < candScore targets f) →
      ∃ i, ∃ hi : i < cands.length,
        bestFold targets cands best
          = (candScore targets (cands.get ⟨i, hi⟩), (cands.get ⟨i, hi⟩).filename,
             (cands.get ⟨i, hi⟩).patch) ∧
        best.1 < candScore targets (cands.get ⟨i, hi⟩) ∧
        (∀ j (hj : j < cands.length),
          candScore targets (cands.get ⟨j, hj⟩) ≤ candScore targets (cands.get ⟨i, hi⟩)) ∧
        (∀ j (hj : j < i),
          candScore targets (cands.get ⟨j, Nat.lt_trans hj hi⟩)
            < candScore targets (cands.get ⟨i, hi⟩)) := by
  intro cands
  induction cands with
  | nil =>
    intro best h
    obtain ⟨f, hf, _⟩ := h
    simp at hf
  | cons f rest ih =>
    intro best hex
    by_cases hbf : best.1 < candScore targets f
    · by_cases hrest : ∃ g ∈ rest, candScore targets f < candScore targets g
      · obtain ⟨i, hi, heq, hgt, hall, hfirst⟩ :=
          ih (candScore targets f, f.filename, f.patch) hrest
        refine ⟨i + 1, Nat.succ_lt_succ hi, ?_, ?_, ?_, ?_⟩
        · simp only [bestFold]
          rw [if_pos hbf]
          exact heq
        · exact lt_trans hbf hgt
        · intro j hj
          cases j with
          | zero => exact le_of_lt hgt
          | succ j => exact hall j (Nat.lt_of_succ_lt_succ hj)
        · intro j hj
          cases j with
          | zero => exact hgt
          | succ j => exact hfirst j (Nat.lt_of_succ_lt_succ hj)
      · push_neg at hrest
        refine ⟨0, Nat.succ_pos _, ?_, hbf, ?_, ?_⟩
        · simp only [bestFold]
          rw [if_pos hbf]
          exact bestFold_noimprove targets rest _ fun g hg => hrest g hg
        · intro j hj
          cases j with
          | zero => exact le_refl _
          | succ j => exact hrest _ (rest.get_mem ..)
        · intro j hj
          exact absurd hj (Nat.not_lt_zero j)
    · have hex' : ∃ g ∈ rest, best.1 < candScore targets g := by
        obtain ⟨g, hg, hlt⟩ := hex
        rcases List.mem_cons.mp hg with rfl | hg'
        · exact absurd hlt hbf
        · exact ⟨g, hg', hlt⟩
      obtain ⟨i, hi, heq, hgt, hall, hfirst⟩ := ih best hex'
      refine ⟨i + 1, Nat.succ_lt_succ hi, ?_, hgt, ?_, ?_⟩
      · simp only [bestFold]
        rw [if_neg hbf]
        exact heq
      · intro j hj
        cases j with
        | zero => exact le_trans (le_of_not_lt hbf) (le_of_lt hgt)
        | succ j => exact hall j (Nat.lt_of_succ_lt_succ hj)
      · intro j hj
        cases j with
        | zero => exact lt_of_le_of_lt (le_of_not_lt hbf) hgt
        | succ j => exact hfirst j (Nat.lt_of_succ_lt_succ hj)

/-- C2: the patch-matching score of every candidate equals the sum of the
documented weight table (`scorePatchSpec`), and for a comparison payload
with at least one nonempty-patch candidate the matcher returns the
candidate of maximum score, ties broken by encounter order: the selected
candidate's score is maximal among all candidates and strictly above every
earlier candidate's. -/
theorem locatePatch_score_and_argmax :
    (∀ (filename patch : GoStr) (targets : ReleaseEntryTargets),
      scorePatchCandidate filename patch targets = scorePatchSpec filename patch targets) ∧
    (∀ (files : List GitHubCompareFile) (targets : ReleaseEntryTargets),
      patchCands files ≠ [] →
      ∃ i, ∃ hi : i < (patchCands files).length,
        locatePatchForEntry files targets
          = (((patchCands files).get ⟨i, hi⟩).filename,
             ((patchCands files).get ⟨i, hi⟩).patch) ∧
        (∀ j (hj : j < (patchCands files).length),
          candScore targets ((patchCands files).get ⟨j, hj⟩)
            ≤ candScore targets ((patchCands files).get ⟨i, hi⟩)) ∧
        (∀ j (hj : j < i),
          candScore targets ((patchCands files).get ⟨j, Nat.lt_trans hj hi⟩)
            < candScore targets ((patchCands files).get ⟨i, hi⟩))) := by
  refine ⟨scorePatch_eq_spec, ?_⟩
  intro files targets hne
  have hex : ∃ f ∈ patchCands files,
      ((-(2 ^ 30 : Int), ([] : GoStr), ([] : GoStr)) : Int × GoStr × GoStr).1
        < candScore targets f := by
    obtain ⟨f, rest, hcons⟩ := List.exists_cons_of_ne_nil hne
    refine ⟨f, by rw [hcons]; exact List.mem_cons_self .., ?_⟩
    have hlb := scorePatch_lb f.filename f.patch targets
    have hsmall : -(2 ^ 30 : Int) < -280 := by norm_num
    exact lt_of_lt_of_le hsmall hlb
  obtain ⟨i, hi, heq, _, hall, hfirst⟩ := bestFold_argmax targets (patchCands files) _ hex
  refine ⟨i, hi, ?_, hall, hfirst⟩
  simp only [locatePatchForEntry]
  rw [locateLoop_eq_bestFold, heq]

/-- Concrete comparison payload for the C2 witness: a changelog file whose
diff body contains all the tokens, an eligible configuration file, and a
zero-length patch that must be ignored. -/
def wFiles : List GitHubCompareFile :=
  [⟨gs "CHANGELOG.md", gs "+- add foo entry"⟩,
   ⟨gs "main.tf", gs "+resource azurerm_foo x"⟩,
   ⟨gs "skipped.tf", gs ""⟩]

/-- Concrete token targets for the C2 witness. -/
def wTargets : ReleaseEntryTargets := ⟨[gs "foo"], [gs "foo"], gs "add foo"⟩

/-- Witness for C2: the argmax contract applied at a concrete payload, and
the concrete selection — the configuration file beats the token-rich
changelog file, and the empty patch is never selected. -/
theorem locatePatch_score_and_argmax_witness :
    (∃ i, ∃ hi : i < (patchCands wFiles).length,
      locatePatchForEntry wFiles wTargets
        = (((patchCands wFiles).get ⟨i, hi⟩).filename,
           ((patchCands wFiles).get ⟨i, hi⟩).patch) ∧
      (∀ j (hj : j < (patchCands wFiles).length),
        candScore wTargets ((patchCands wFiles).get ⟨j, hj⟩)
          ≤ candScore wTargets ((patchCands wFiles).get ⟨i, hi⟩)) ∧
      (∀ j (hj : j < i),
        candScore wTargets ((patchCands wFiles).get ⟨j, Nat.lt_trans hj hi⟩)
          < candScore wTargets ((patchCands wFiles).get ⟨i, hi⟩))) ∧
    locatePatchForEntry wFiles wTargets = (gs "main.tf", gs "+resource azurerm_foo x") :=
  ⟨locatePatch_score_and_argmax.2 wFiles wTargets (by decide), by decide⟩

end Wam
